import Mathlib

/-
Shallow embedding of src/client/encode.rs from the async-h1 client:
the HTTP/1.1 request encoder.  Pure data and functions mirror the Rust
source; the poll-based read loop becomes an explicit step function on an
encoder state, and the external BodyEncoder collaborator is modelled as a
script of poll outcomes it will deliver.
-/

/-- The io::ErrorKind values the encoder constructs. -/
inductive IoErrKind where
  | invalidData
  | other
deriving DecidableEq, Repr

/-- An io::Error as observed by the caller: kind plus message. -/
structure IoErr where
  kind : IoErrKind
  msg : String
deriving DecidableEq, Repr

/-- http_types::Method, restricted to the usual verbs; Display yields the
uppercase token written into the request line. -/
inductive Method where
  | Get
  | Head
  | Post
  | Put
  | Delete
  | Connect
  | Options
  | Trace
  | Patch
deriving DecidableEq, Repr

/-- Display of http_types::Method. -/
def methodStr : Method → String
  | .Get => "GET"
  | .Head => "HEAD"
  | .Post => "POST"
  | .Put => "PUT"
  | .Delete => "DELETE"
  | .Connect => "CONNECT"
  | .Options => "OPTIONS"
  | .Trace => "TRACE"
  | .Patch => "PATCH"

/-- The url::Url accessors the encoder consults.  The port field is what
Url::port() returns: the explicit port of the URL (the url crate drops a
port equal to the scheme default at parse time, so a default port reads
back as none). -/
structure Url where
  scheme : String
  host : Option String
  port : Option Nat
  path : String
  query : Option String
  fragment : Option String
deriving DecidableEq, Repr

/-- The known default ports of the url crate, as used by
Url::port_or_known_default(). -/
def defaultPort : String → Option Nat
  | "http" => some 80
  | "https" => some 443
  | "ws" => some 80
  | "wss" => some 443
  | "ftp" => some 21
  | _ => none

/-- Url::port_or_known_default(): the explicit port, or the scheme default. -/
def portOrKnownDefault (u : Url) : Option Nat :=
  match u.port with
  | some p => some p
  | none => defaultPort u.scheme

/-- One outcome of polling the external BodyEncoder collaborator
(its incremental-read contract): Ready(Ok(n)) delivering the given bytes
(an empty list is n = 0, end of stream), Pending, or Ready(Err). -/
inductive BodyPoll where
  | bytes (data : List Char)
  | pending
  | fail (e : IoErr)
deriving DecidableEq, Repr

/-- http_types::Request as the encoder consumes it.  headers models the
Headers HashMap: entries map a lowercased ASCII name to the ordered list of
its values; the list order stands for the (irrelevant) map iteration order.
bodyLen is Request::len(); bodyScript is the sequence of poll outcomes the
BodyEncoder wrapping the taken body will produce. -/
structure Request where
  method : Method
  url : Url
  headers : List (String × List String)
  bodyLen : Option Nat
  bodyScript : List BodyPoll
deriving DecidableEq, Repr

/-- Headers::header(name): the values stored under a name, if present. -/
def lookupHdr (hs : List (String × List String)) (n : String) : Option (List String) :=
  match hs.find? (fun e => e.1 == n) with
  | some e => some e.2
  | none => none

/-- Headers::insert(name, values): replace any existing values under the
name.  The HashMap has no meaningful order, so the entry goes at the end. -/
def insertHeader (hs : List (String × List String)) (n : String) (vs : List String) :
    List (String × List String) :=
  hs.filter (fun e => e.1 != n) ++ [(n, vs)]

/-- The Host header value derived from the URL: host, or host:port when the
URL carries an explicit port. -/
def hostHeaderValue (h : String) : Option Nat → String
  | some p => h ++ ":" ++ toString p
  | none => h

/-- First step of Encoder::finalize_headers: derive Host from the URL when
no Host header is present (an error when the URL has no host). -/
def hostStep (r : Request) : Except IoErr Request :=
  match lookupHdr r.headers "host" with
  | some _ => Except.ok r
  | none =>
    match r.url.host with
    | none => Except.error ⟨.invalidData, "Missing hostname"⟩
    | some h =>
      Except.ok { r with headers := insertHeader r.headers "host" [hostHeaderValue h r.url.port] }

/-- Encoder::finalize_headers continued: after the Host step, add
proxy-connection for CONNECT, then insert exactly one framing header chosen
by the declared body length. -/
def finalize_headers (r : Request) : Except IoErr Request :=
  match hostStep r with
  | .error e => Except.error e
  | .ok r1 =>
    let r2 :=
      if r1.method = .Connect then
        { r1 with headers := insertHeader r1.headers "proxy-connection" ["keep-alive"] }
      else r1
    match r2.bodyLen with
    | some n => Except.ok { r2 with headers := insertHeader r2.headers "content-length" [toString n] }
    | none => Except.ok { r2 with headers := insertHeader r2.headers "transfer-encoding" ["chunked"] }

/-- Byte-wise lexicographic order on char lists, the order Rust str
comparison uses (for the ASCII header names at hand, char-wise equals
byte-wise). -/
def lexLe : List Char → List Char → Bool
  | [], _ => true
  | _ :: _, [] => false
  | a :: as, b :: bs =>
    if a.toNat < b.toNat then true
    else if b.toNat < a.toNat then false
    else lexLe as bs

/-- The sort key of compute_head: the Host header sorts as "0", every other
header by its own name. -/
def sortKey (e : String × List String) : String :=
  if e.1 = "host" then "0" else e.1

/-- Order on header entries induced by the sort key. -/
def entryLe (a b : String × List String) : Prop :=
  lexLe (sortKey a).data (sortKey b).data = true

instance : DecidableRel entryLe :=
  fun a b => instDecidableEqBool (lexLe (sortKey a).data (sortKey b).data) true

instance : IsTotal (String × List String) entryLe := by
  constructor
  have key : ∀ x y : List Char, lexLe x y = true ∨ lexLe y x = true := by
    intro x
    induction x with
    | nil => intro y; left; rfl
    | cons a as ih =>
      intro y
      cases y with
      | nil => right; rfl
      | cons b bs =>
        simp only [lexLe]
        rcases Nat.lt_trichotomy a.toNat b.toNat with h | h | h
        · left; simp [h]
        · have h1 : ¬ a.toNat < b.toNat := by omega
          have h2 : ¬ b.toNat < a.toNat := by omega
          simpa [h1, h2] using ih bs
        · have h1 : ¬ a.toNat < b.toNat := by omega
          right; simp [h, h1]
  intro a b
  exact key (sortKey a).data (sortKey b).data

instance : IsTrans (String × List String) entryLe := by
  constructor
  have key : ∀ x y z : List Char,
      lexLe x y = true → lexLe y z = true → lexLe x z = true := by
    intro x
    induction x with
    | nil => intro y z _ _; rfl
    | cons a as ih =>
      intro y z hxy hyz
      cases y with
      | nil => simp [lexLe] at hxy
      | cons b bs =>
        cases z with
        | nil => simp [lexLe] at hyz
        | cons c cs =>
          simp only [lexLe] at hxy hyz ⊢
          by_cases hab : a.toNat < b.toNat
          · by_cases hbc : b.toNat < c.toNat
            · have : a.toNat < c.toNat := by omega
              simp [this]
            · have hcb : ¬ c.toNat < b.toNat := by
                by_contra hc
                simp [hbc, hc] at hyz
              have : a.toNat < c.toNat := by omega
              simp [this]
          · have hba : ¬ b.toNat < a.toNat := by
              by_contra hc
              simp [hab, hc] at hxy
            by_cases hbc : b.toNat < c.toNat
            · have : a.toNat < c.toNat := by omega
              simp [this]
            · have hcb : ¬ c.toNat < b.toNat := by
                by_contra hc
                simp [hbc, hc] at hyz
              have hac : ¬ a.toNat < c.toNat := by omega
              have hca : ¬ c.toNat < a.toNat := by omega
              simp [hab, hba, hbc, hcb, hac, hca] at hxy hyz ⊢
              exact ih bs cs hxy hyz
  intro a b c
  exact key _ _ _

/-- headers.sort_unstable_by_key of compute_head.  Insertion sort is one
by-key sort; the Rust sort is unstable, so any order among equal keys is a
faithful refinement. -/
def sortHeaders (hs : List (String × List String)) : List (String × List String) :=
  List.insertionSort entryLe hs

/-- The (name, value) pairs in emission order: one pair per value, per
sorted entry. -/
def headerPairs (hs : List (String × List String)) : List (String × String) :=
  (sortHeaders hs).flatMap (fun e => e.2.map (fun v => (e.1, v)))

/-- One serialized header line. -/
def headerLineStr (p : String × String) : String :=
  p.1 ++ ": " ++ p.2 ++ "\r\n"

/-- The serialized header block (without the closing blank line). -/
def headerBlockStr (hs : List (String × List String)) : String :=
  String.join ((headerPairs hs).map headerLineStr)

/-- Optional query rendering of the origin-form target. -/
def optQueryStr : Option String → String
  | some q => "?" ++ q
  | none => ""

/-- The request-line target of compute_head: authority-form host:port for
CONNECT (with the url-crate default port), origin-form path plus optional
query otherwise.  The URL fragment is never consulted. -/
def computeTarget (r : Request) : Except IoErr String :=
  if r.method = .Connect then
    match r.url.host with
    | none => Except.error ⟨.invalidData, "Missing hostname"⟩
    | some h =>
      match portOrKnownDefault r.url with
      | none => Except.error ⟨.invalidData, "Unexpected scheme with no default port"⟩
      | some p => Except.ok (h ++ ":" ++ toString p)
  else
    Except.ok (r.url.path ++ optQueryStr r.url.query)

/-- Encoder::compute_head: render request line, finalize headers, render
the sorted header block and closing blank line.  Returns the finalized
request (the Rust method mutates self.request) and the head bytes. -/
def compute_head (r : Request) : Except IoErr (Request × List Char) :=
  match computeTarget r with
  | .error e => Except.error e
  | .ok target =>
    match finalize_headers r with
    | .error e => Except.error e
    | .ok r2 =>
      Except.ok (r2, (methodStr r.method ++ " " ++ target ++ " HTTP/1.1\r\n" ++
                      headerBlockStr r2.headers ++ "\r\n").data)

/-- Modelled from the spec: EncoderState is declared outside this file (in
the crate root, only encode.rs is available); its variants and payloads are
those the spec's data model gives and the source constructs: Start, Head
with the rendered buffer and read cursor, Body with the body framer script,
the bytes-written counter and the declared length, and the terminal End. -/
inductive EncoderState where
  | Start
  | Head (buf : List Char) (cursor : Nat)
  | Body (script : List BodyPoll) (nWritten : Nat) (reqLen : Option Nat)
  | End
deriving DecidableEq, Repr

/-- The client Encoder: the owned request plus the state machine state. -/
structure Encoder where
  request : Request
  state : EncoderState
deriving DecidableEq, Repr

/-- Encoder::new. -/
def Encoder.new (r : Request) : Encoder :=
  { request := r, state := .Start }

/-- The outcome of one poll_read call: Ready(Ok(n)) with the n delivered
bytes, Ready(Err), or Pending. -/
inductive PollOut where
  | ready (data : List Char)
  | fail (e : IoErr)
  | pending
deriving DecidableEq, Repr

/-- The bytes a poll outcome hands to the caller. -/
def delivered : PollOut → List Char
  | .ready d => d
  | _ => []

/-- The Body arm of poll_read: poll the body framer (consume the next
script item).  Ready(Ok(0)) checks bytes-written against the declared
length: mismatch returns the protocol error without reassigning the state
(the loop match only stores a new state on fall-through), match moves to
End.  Ready(Ok(n)) with n positive accumulates and returns; everything
else is returned as-is.  An exhausted script models a framer that never
resolves, so polling it stays Pending. -/
def pollBody (req : Request) (script : List BodyPoll) (nW : Nat) (rl : Option Nat) :
    Encoder × PollOut :=
  match script with
  | [] => ({ request := req, state := .Body [] nW rl }, .pending)
  | .pending :: rest => ({ request := req, state := .Body rest nW rl }, .pending)
  | .fail e :: rest => ({ request := req, state := .Body rest nW rl }, .fail e)
  | .bytes d :: rest =>
    if d = [] then
      match rl with
      | some len =>
        if nW = len then ({ request := req, state := .End }, .ready [])
        else ({ request := req, state := .Body rest nW rl },
              .fail ⟨.other, "Unexpected end of response body"⟩)
      | none => ({ request := req, state := .End }, .ready [])
    else
      ({ request := req, state := .Body rest (nW + d.length) rl }, .ready d)

/-- Modelled from the spec: the Head arm of poll_read goes through the
read_to_end macro of the crate root, which is not available here.  Copying
from the cursor and returning any positive count follows the source; for a
zero-count copy the spec's state invariant (the Head state transitions out
only when cursor equals the buffer length) decides: at the end of the
buffer the request body is taken and the Body framer is polled in the same
call, otherwise (a zero-length caller buffer) the encoder stays in Head
and reports zero bytes. -/
def pollHead (req : Request) (buf : List Char) (c : Nat) (bs : Nat) :
    Encoder × PollOut :=
  let k := min bs (buf.length - c)
  if k = 0 then
    if c = buf.length then
      pollBody req req.bodyScript 0 req.bodyLen
    else
      ({ request := req, state := .Head buf c }, .ready [])
  else
    ({ request := req, state := .Head buf (c + k) }, .ready ((buf.drop c).take k))

/-- Encoder::poll_read, one call with a caller buffer of size bs: run the
state machine loop until it returns.  Start computes the head (an error
propagates before the state is reassigned) and falls into the Head arm;
End always reports a clean zero-byte end of stream. -/
def poll_read (e : Encoder) (bs : Nat) : Encoder × PollOut :=
  match e.state with
  | .Start =>
    match compute_head e.request with
    | .error er => (e, .fail er)
    | .ok (r2, buf) => pollHead r2 buf 0 bs
  | .Head buf c => pollHead e.request buf c bs
  | .Body script nW rl => pollBody e.request script nW rl
  | .End => (e, .ready [])

/-- A sequence of poll_read calls with the given buffer sizes. -/
def runAll (e : Encoder) : List Nat → Encoder × List PollOut
  | [] => (e, [])
  | bs :: rest =>
    let s := poll_read e bs
    let t := runAll s.1 rest
    (t.1, s.2 :: t.2)

/-- All bytes a sequence of poll outcomes delivered, in order. -/
def outBytes (os : List PollOut) : List Char :=
  os.flatMap delivered

/-- The raw bytes carried by a framer script (chunk payloads in order). -/
def bodyBytes (s : List BodyPoll) : List Char :=
  s.flatMap (fun i => match i with | .bytes d => d | _ => [])

/-- The full intended wire stream of a request: the head bytes followed by
every byte its body framer script carries (empty when head composition
fails). -/
def wireOf (r : Request) : List Char :=
  match compute_head r with
  | .ok x => x.2 ++ bodyBytes r.bodyScript
  | .error _ => []

/-- Whether a state is Body or End (the head has been fully delivered). -/
def pastHead : EncoderState → Bool
  | .Body _ _ _ => true
  | .End => true
  | _ => false

/-- A framer script that keeps signalling end-of-stream (the contract of a
framer after its stream ended). -/
def allEos (s : List BodyPoll) : Prop :=
  ∀ i ∈ s, i = BodyPoll.bytes []

/-- The state invariant tying a reachable encoder to the request it was
created from and to the bytes delivered so far. -/
def StateInv (r : Request) (e : Encoder) (acc : List Char) : Prop :=
  match e.state with
  | .Start => e.request = r ∧ acc = []
  | .Head buf c =>
    ∃ r2, compute_head r = .ok (r2, buf) ∧ e.request = r2 ∧
      c ≤ buf.length ∧ acc = buf.take c
  | .Body script nW rl =>
    ∃ r2 buf consumed,
      compute_head r = .ok (r2, buf) ∧ rl = r.bodyLen ∧
      r.bodyScript = consumed ++ script ∧
      acc = buf ++ bodyBytes consumed ∧ nW = (bodyBytes consumed).length
  | .End =>
    ∃ r2 buf consumed rest,
      compute_head r = .ok (r2, buf) ∧
      r.bodyScript = consumed ++ rest ∧
      acc = buf ++ bodyBytes consumed ∧
      (∀ len, r.bodyLen = some len → (bodyBytes consumed).length = len)

/-- A minimal request fixture: GET http://h/ with an empty body. -/
def sampleUrl : Url := ⟨"http", some "h", none, "/", none, none⟩

/-- See sampleUrl. -/
def sampleReq : Request := ⟨.Get, sampleUrl, [], some 0, []⟩

/-- Fixture: a caller header whose name sorts below "0" in byte order. -/
def bangReq : Request :=
  ⟨.Get, ⟨"http", some "example.com", none, "/", none, none⟩, [("!x", ["1"])], some 0, []⟩

/-- Fixture: an ordinary caller header, no Host supplied. -/
def acceptReq : Request :=
  ⟨.Get, ⟨"http", some "example.com", none, "/", none, none⟩, [("accept", ["text"])], some 0, []⟩

/-- Fixture: caller pre-set chunked transfer-encoding on a fixed-length body. -/
def teClashReq : Request :=
  ⟨.Get, ⟨"http", some "h", none, "/", none, none⟩, [("transfer-encoding", ["chunked"])], some 5, []⟩

/-- Fixture: a URL with no host component and no caller Host header. -/
def noHostReq : Request :=
  ⟨.Get, ⟨"unix", none, none, "/", none, none⟩, [], some 0, []⟩

/-- Fixture: CONNECT to example.com over https with no explicit port. -/
def connectReq : Request :=
  ⟨.Connect, ⟨"https", some "example.com", none, "", none, none⟩, [], some 0, []⟩

/-- Fixture: GET http://h/path?q=1#frag. -/
def fragReq : Request :=
  ⟨.Get, ⟨"http", some "h", none, "/path", some "q=1", some "frag"⟩, [], some 0, []⟩

/-- Fixture: a two-byte declared body whose framer delivers both bytes and
then a clean end of stream. -/
def twoByteReq : Request :=
  ⟨.Get, sampleUrl, [], some 2, [BodyPoll.bytes ['a', 'b'], BodyPoll.bytes []]⟩

theorem bodyBytes_append (a b : List BodyPoll) :
    bodyBytes (a ++ b) = bodyBytes a ++ bodyBytes b := by
  simp [bodyBytes]

theorem hostStep_fields (r r1 : Request) (h : hostStep r = .ok r1) :
    r1.method = r.method ∧ r1.url = r.url ∧ r1.bodyLen = r.bodyLen ∧
    r1.bodyScript = r.bodyScript := by
  unfold hostStep at h
  cases hl : lookupHdr r.headers "host" with
  | some vs =>
    rw [hl] at h
    simp only [Except.ok.injEq] at h
    subst h
    exact ⟨rfl, rfl, rfl, rfl⟩
  | none =>
    rw [hl] at h
    cases hh : r.url.host with
    | none => rw [hh] at h; simp at h
    | some hn =>
      rw [hh] at h
      simp only [Except.ok.injEq] at h
      subst h
      exact ⟨rfl, rfl, rfl, rfl⟩

theorem finalize_headers_fields (r r3 : Request) (h : finalize_headers r = .ok r3) :
    r3.method = r.method ∧ r3.url = r.url ∧ r3.bodyLen = r.bodyLen ∧
    r3.bodyScript = r.bodyScript := by
  unfold finalize_headers at h
  cases hs : hostStep r with
  | error e => rw [hs] at h; simp at h
  | ok r1 =>
    rw [hs] at h
    obtain ⟨f1, f2, f3, f4⟩ := hostStep_fields r r1 hs
    by_cases hc : r1.method = Method.Connect <;>
      simp only [hc, if_pos, if_neg, not_false_iff] at h <;>
      cases hb : r1.bodyLen <;>
      simp only [hb] at h <;>
      simp only [Except.ok.injEq] at h <;>
      subst h <;>
      simp_all

theorem compute_head_fields (r r2 : Request) (buf : List Char)
    (h : compute_head r = .ok (r2, buf)) :
    r2.method = r.method ∧ r2.url = r.url ∧ r2.bodyLen = r.bodyLen ∧
    r2.bodyScript = r.bodyScript := by
  unfold compute_head at h
  cases ht : computeTarget r with
  | error e => rw [ht] at h; simp at h
  | ok t =>
    rw [ht] at h
    cases hf : finalize_headers r with
    | error e => rw [hf] at h; simp at h
    | ok rr =>
      rw [hf] at h
      simp only [Except.ok.injEq, Prod.mk.injEq] at h
      obtain ⟨h1, h2⟩ := h
      subst h1
      exact finalize_headers_fields r rr hf

theorem pollBody_inv (r req : Request) (script : List BodyPoll) (nW : Nat)
    (rl : Option Nat) (r2 : Request) (buf : List Char) (consumed : List BodyPoll)
    (acc : List Char)
    (hch : compute_head r = .ok (r2, buf))
    (hsc : r.bodyScript = consumed ++ script)
    (hacc : acc = buf ++ bodyBytes consumed)
    (hn : nW = (bodyBytes consumed).length)
    (hrl : rl = r.bodyLen) :
    StateInv r (pollBody req script nW rl).1
      (acc ++ delivered (pollBody req script nW rl).2) := by
  cases script with
  | nil =>
    simp only [pollBody, delivered, StateInv, List.append_nil]
    exact ⟨r2, buf, consumed, hch, hrl, by simpa using hsc, hacc, hn⟩
  | cons i rest =>
    cases i with
    | pending =>
      simp only [pollBody, delivered, StateInv, List.append_nil]
      refine ⟨r2, buf, consumed ++ [BodyPoll.pending], hch, hrl, ?_, ?_, ?_⟩
      · simpa using hsc
      · simp [hacc, bodyBytes_append, bodyBytes]
      · simp [hn, bodyBytes_append, bodyBytes]
    | fail e =>
      simp only [pollBody, delivered, StateInv, List.append_nil]
      refine ⟨r2, buf, consumed ++ [BodyPoll.fail e], hch, hrl, ?_, ?_, ?_⟩
      · simpa using hsc
      · simp [hacc, bodyBytes_append, bodyBytes]
      · simp [hn, bodyBytes_append, bodyBytes]
    | bytes d =>
      by_cases hd : d = []
      · subst hd
        cases hL : r.bodyLen with
        | some len =>
          subst hrl
          rw [hL]
          by_cases hnl : nW = len
          · simp only [pollBody, hnl, if_pos, if_true, delivered, StateInv,
              List.append_nil, reduceIte]
            refine ⟨r2, buf, consumed ++ [BodyPoll.bytes []], rest, hch, ?_, ?_, ?_⟩
            · simpa using hsc
            · simp [hacc, bodyBytes_append, bodyBytes]
            · intro len2 hlen2
              rw [hL] at hlen2
              cases hlen2
              rw [bodyBytes_append, List.length_append]
              have h0 : (bodyBytes [BodyPoll.bytes []]).length = 0 := rfl
              rw [h0]
              omega
          · simp only [pollBody, hnl, delivered, StateInv, List.append_nil, reduceIte]
            refine ⟨r2, buf, consumed ++ [BodyPoll.bytes []], hch, hL.symm, ?_, ?_, ?_⟩
            · simpa using hsc
            · simp [hacc, bodyBytes_append, bodyBytes]
            · simp [hn, bodyBytes_append, bodyBytes]
        | none =>
          subst hrl
          rw [hL]
          simp only [pollBody, delivered, StateInv, List.append_nil, reduceIte]
          refine ⟨r2, buf, consumed ++ [BodyPoll.bytes []], rest, hch, ?_, ?_, ?_⟩
          · simpa using hsc
          · simp [hacc, bodyBytes_append, bodyBytes]
          · intro len2 hlen2
            rw [hL] at hlen2
            cases hlen2
      · simp only [pollBody, hd, delivered, StateInv, reduceIte]
        refine ⟨r2, buf, consumed ++ [BodyPoll.bytes d], hch, hrl, ?_, ?_, ?_⟩
        · simpa using hsc
        · simp [hacc, bodyBytes_append, bodyBytes]
        · simp [hn, bodyBytes_append, bodyBytes]

theorem pollHead_inv (r r2 : Request) (buf : List Char) (c bs : Nat) (acc : List Char)
    (hch : compute_head r = .ok (r2, buf)) (hc : c ≤ buf.length)
    (hacc : acc = buf.take c) :
    StateInv r (pollHead r2 buf c bs).1
      (acc ++ delivered (pollHead r2 buf c bs).2) := by
  obtain ⟨f1, f2, f3, f4⟩ := compute_head_fields r r2 buf hch
  unfold pollHead
  by_cases hk : min bs (buf.length - c) = 0
  · rw [if_pos hk]
    by_cases hce : c = buf.length
    · rw [if_pos hce]
      apply pollBody_inv r r2 r2.bodyScript 0 r2.bodyLen r2 buf [] acc hch
      · simp [f4]
      · simp [hacc, hce, bodyBytes]
      · simp [bodyBytes]
      · exact f3
    · rw [if_neg hce]
      simp only [delivered, StateInv, List.append_nil]
      exact ⟨r2, hch, rfl, hc, hacc⟩
  · rw [if_neg hk]
    simp only [delivered, StateInv]
    refine ⟨r2, hch, rfl, ?_, ?_⟩
    · have : min bs (buf.length - c) ≤ buf.length - c := Nat.min_le_right _ _
      omega
    · rw [hacc, ← List.take_add]

theorem poll_read_inv (r : Request) (e : Encoder) (acc : List Char) (bs : Nat)
    (h : StateInv r e acc) :
    StateInv r (poll_read e bs).1 (acc ++ delivered (poll_read e bs).2) := by
  obtain ⟨req, st⟩ := e
  cases st with
  | Start =>
    obtain ⟨hreq, hacc⟩ := h
    dsimp only at hreq
    subst hreq
    unfold poll_read
    dsimp only
    cases hch : compute_head req with
    | error er =>
      refine ⟨rfl, ?_⟩
      simp [delivered, hacc]
    | ok pr =>
      obtain ⟨r2, buf⟩ := pr
      exact pollHead_inv req r2 buf 0 bs acc hch (Nat.zero_le _) (by simp [hacc])
  | Head buf c =>
    obtain ⟨r2, hch, hreq, hc, hacc⟩ := h
    dsimp only at hreq
    subst hreq
    unfold poll_read
    dsimp only
    exact pollHead_inv r req buf c bs acc hch hc hacc
  | Body script nW rl =>
    obtain ⟨r2, buf, consumed, hch, hrl, hsc, hacc, hn⟩ := h
    unfold poll_read
    dsimp only
    exact pollBody_inv r req script nW rl r2 buf consumed acc hch hsc hacc hn hrl
  | End =>
    obtain ⟨r2, buf, consumed, rest, hch, hsc, hacc, hlen⟩ := h
    unfold poll_read
    dsimp only
    simp only [delivered, StateInv, List.append_nil]
    exact ⟨r2, buf, consumed, rest, hch, hsc, hacc, hlen⟩

theorem runAll_inv (r : Request) (calls : List Nat) :
    ∀ (e : Encoder) (acc : List Char), StateInv r e acc →
      StateInv r (runAll e calls).1 (acc ++ outBytes (runAll e calls).2) := by
  induction calls with
  | nil =>
    intro e acc h
    simpa [runAll, outBytes] using h
  | cons bs rest ih =>
    intro e acc h
    have h1 := poll_read_inv r e acc bs h
    have h2 := ih (poll_read e bs).1 (acc ++ delivered (poll_read e bs).2) h1
    simp only [runAll, outBytes, List.flatMap_cons]
    simpa [outBytes, List.append_assoc] using h2

theorem stateInv_init (r : Request) : StateInv r (Encoder.new r) [] := by
  exact ⟨rfl, rfl⟩

theorem runAll_inv0 (r : Request) (calls : List Nat) :
    StateInv r (runAll (Encoder.new r) calls).1
      (outBytes (runAll (Encoder.new r) calls).2) := by
  simpa using runAll_inv r calls (Encoder.new r) [] (stateInv_init r)

/-- C9: once an encoder has reached the End state, every subsequent
poll_read call returns zero bytes, never an error, leaves the encoder
unchanged, and this repeats indefinitely. -/
theorem claim9_end_idempotent (e : Encoder) (h : e.state = EncoderState.End) :
    (∀ bs, poll_read e bs = (e, PollOut.ready [])) ∧
    (∀ calls, (runAll e calls).1 = e ∧
      ∀ o ∈ (runAll e calls).2, o = PollOut.ready []) := by
  have hstep : ∀ bs, poll_read e bs = (e, PollOut.ready []) := by
    intro bs
    obtain ⟨req, st⟩ := e
    dsimp only at h
    subst h
    rfl
  refine ⟨hstep, ?_⟩
  intro calls
  induction calls with
  | nil => exact ⟨rfl, by intro o ho; cases ho⟩
  | cons bs rest ih =>
    obtain ⟨ih1, ih2⟩ := ih
    constructor
    · show (runAll (poll_read e bs).1 rest).1 = e
      rw [hstep bs]
      exact ih1
    · intro o ho
      have hexp : (runAll e (bs :: rest)).2 =
          PollOut.ready [] :: (runAll e rest).2 := by
        show ((poll_read e bs).2 :: (runAll (poll_read e bs).1 rest).2) = _
        rw [hstep bs]
      rw [hexp] at ho
      cases ho with
      | head => rfl
      | tail _ ho2 => exact ih2 o ho2

/-- C9 witness: a concrete encoder in End keeps answering zero bytes. -/
theorem claim9_witness :
    poll_read ⟨sampleReq, EncoderState.End⟩ 7 =
      (⟨sampleReq, EncoderState.End⟩, PollOut.ready []) :=
  (claim9_end_idempotent ⟨sampleReq, EncoderState.End⟩ rfl).1 7

theorem compute_head_no_host (r : Request)
    (h1 : r.url.host = none) (h2 : lookupHdr r.headers "host" = none) :
    compute_head r = .error ⟨.invalidData, "Missing hostname"⟩ := by
  unfold compute_head computeTarget finalize_headers hostStep
  by_cases hm : r.method = Method.Connect
  · simp [hm, h1]
  · simp [hm, h1, h2]

/-- C6: a request whose URL has no host component and that carries no
caller-supplied Host header makes head composition, and hence the first
read call (and every later one, the state never leaving Start), fail with
the invalid-data error "Missing hostname", while zero bytes are ever
delivered. -/
theorem claim6_missing_hostname (r : Request)
    (h1 : r.url.host = none) (h2 : lookupHdr r.headers "host" = none) :
    compute_head r = .error ⟨.invalidData, "Missing hostname"⟩ ∧
    (∀ bs, poll_read (Encoder.new r) bs =
      (Encoder.new r, PollOut.fail ⟨.invalidData, "Missing hostname"⟩)) ∧
    (∀ calls, outBytes (runAll (Encoder.new r) calls).2 = []) := by
  have hch := compute_head_no_host r h1 h2
  have hstep : ∀ bs, poll_read (Encoder.new r) bs =
      (Encoder.new r, PollOut.fail ⟨.invalidData, "Missing hostname"⟩) := by
    intro bs
    unfold poll_read Encoder.new
    dsimp only
    rw [hch]
  refine ⟨hch, hstep, ?_⟩
  intro calls
  induction calls with
  | nil => rfl
  | cons bs rest ih =>
    show outBytes ((poll_read (Encoder.new r) bs).2 ::
      (runAll (poll_read (Encoder.new r) bs).1 rest).2) = []
    rw [hstep bs]
    simpa [outBytes, delivered] using ih

/-- C6 witness: a concrete host-less request fails with the configuration
error and delivers nothing over two calls. -/
theorem claim6_witness :
    compute_head noHostReq = .error ⟨.invalidData, "Missing hostname"⟩ ∧
    outBytes (runAll (Encoder.new noHostReq) [4, 4]).2 = [] :=
  ⟨(claim6_missing_hostname noHostReq rfl rfl).1,
   (claim6_missing_hostname noHostReq rfl rfl).2.2 [4, 4]⟩

/-- C7: for a CONNECT request the request-line target is authority-form
host:port, the port falling back to the scheme's known default when the
URL has none, and target composition fails with the invalid-data error
when neither an explicit port nor a known default exists. -/
theorem claim7_connect_target (r : Request) (h : String)
    (hm : r.method = Method.Connect) (hh : r.url.host = some h) :
    (∀ p, portOrKnownDefault r.url = some p →
      computeTarget r = .ok (h ++ ":" ++ toString p)) ∧
    (portOrKnownDefault r.url = none →
      computeTarget r = .error ⟨.invalidData, "Unexpected scheme with no default port"⟩) ∧
    (r.url.port = none → portOrKnownDefault r.url = defaultPort r.url.scheme) := by
  refine ⟨?_, ?_, ?_⟩
  · intro p hp
    unfold computeTarget
    simp [hm, hh, hp]
  · intro hp
    unfold computeTarget
    simp [hm, hh, hp]
  · intro hp
    unfold portOrKnownDefault
    rw [hp]

/-- C7 witness: CONNECT to example.com over https with no explicit port
renders the target example.com:443. -/
theorem claim7_witness : computeTarget connectReq = .ok "example.com:443" :=
  (claim7_connect_target connectReq "example.com" rfl rfl).1 443 rfl

/-- C8: for every non-CONNECT request the request-line target is the URL
path, followed by a question mark and the query exactly when a query
exists, and the URL fragment never influences the target. -/
theorem claim8_origin_form (r : Request) (hm : r.method ≠ Method.Connect) :
    computeTarget r = .ok (r.url.path ++ optQueryStr r.url.query) ∧
    (∀ q, r.url.query = some q →
      computeTarget r = .ok (r.url.path ++ "?" ++ q)) ∧
    (r.url.query = none → computeTarget r = .ok r.url.path) ∧
    (∀ f, computeTarget { r with url := { r.url with fragment := f } } = computeTarget r) := by
  refine ⟨?_, ?_, ?_, ?_⟩
  · unfold computeTarget
    simp [hm]
  · intro q hq
    unfold computeTarget
    simp [hm, hq, optQueryStr, String.append_assoc]
  · intro hq
    unfold computeTarget
    simp [hm, hq, optQueryStr]
  · intro f
    unfold computeTarget
    simp [hm]

/-- C8 witness: GET http://h/path?q=1#frag renders the target /path?q=1,
identical to the same URL without the fragment. -/
theorem claim8_witness :
    computeTarget fragReq = .ok "/path?q=1" ∧
    computeTarget { fragReq with url := { fragReq.url with fragment := none } } =
      computeTarget fragReq :=
  ⟨(claim8_origin_form fragReq (by decide)).2.1 "q=1" rfl,
   (claim8_origin_form fragReq (by decide)).2.2.2 none⟩

/-- C10 counterexample: a concrete encoder in Head with two undelivered
head bytes, polled with a zero-length buffer, stays in Head and does not
move to Body (under the spec-modelled Head arm, whose transition happens
only at cursor = length). -/
theorem claim10_cex :
    (0 : Nat) < (['A', 'B'] : List Char).length ∧
    (poll_read ⟨sampleReq, EncoderState.Head ['A', 'B'] 0⟩ 0).1.state =
      EncoderState.Head ['A', 'B'] 0 ∧
    ¬ ∃ sc n rl, (poll_read ⟨sampleReq, EncoderState.Head ['A', 'B'] 0⟩ 0).1.state =
      EncoderState.Body sc n rl := by
  refine ⟨by decide, by decide, ?_⟩
  intro ⟨sc, n, rl, heq⟩
  have hhead : (poll_read ⟨sampleReq, EncoderState.Head ['A', 'B'] 0⟩ 0).1.state =
      EncoderState.Head ['A', 'B'] 0 := by decide
  rw [hhead] at heq
  cases heq

/-- C10 amended: a zero-length read against an encoder in Head with an
unexhausted cursor returns zero bytes and leaves the encoder unchanged in
Head; the undelivered head bytes remain deliverable by a later call with a
large enough buffer. -/
theorem claim10_amended (e : Encoder) (buf : List Char) (c : Nat)
    (h : e.state = EncoderState.Head buf c) (hc : c < buf.length) :
    poll_read e 0 = (e, PollOut.ready []) ∧
    (poll_read (poll_read e 0).1 (buf.length - c)).2 = PollOut.ready (buf.drop c) := by
  obtain ⟨req, st⟩ := e
  dsimp only at h
  subst h
  have hne : c ≠ buf.length := Nat.ne_of_lt hc
  have h0 : poll_read ⟨req, EncoderState.Head buf c⟩ 0 =
      (⟨req, EncoderState.Head buf c⟩, PollOut.ready []) := by
    unfold poll_read pollHead
    simp [hne]
  refine ⟨h0, ?_⟩
  rw [h0]
  unfold poll_read pollHead
  have hk : min (buf.length - c) (buf.length - c) = buf.length - c := Nat.min_self _
  have hkne : ¬ (min (buf.length - c) (buf.length - c) = 0) := by omega
  simp only [hkne, if_neg, hk, not_false_iff]
  have : (buf.drop c).take (buf.length - c) = buf.drop c := by
    have hlen : (buf.drop c).length = buf.length - c := List.length_drop c buf
    rw [← hlen, List.take_length]
  rw [this]
  have hnz : ¬ (buf.length - c = 0) := by omega
  rw [if_neg hnz]

/-- C10 amended witness: the concrete two-byte head stays put on a
zero-length read and both bytes arrive on the next call. -/
theorem claim10_witness :
    poll_read ⟨sampleReq, EncoderState.Head ['A', 'B'] 0⟩ 0 =
      (⟨sampleReq, EncoderState.Head ['A', 'B'] 0⟩, PollOut.ready []) ∧
    (poll_read (poll_read ⟨sampleReq, EncoderState.Head ['A', 'B'] 0⟩ 0).1 2).2 =
      PollOut.ready ['A', 'B'] :=
  claim10_amended ⟨sampleReq, EncoderState.Head ['A', 'B'] 0⟩ ['A', 'B'] 0 rfl (by decide)

theorem mismatch_step (e : Encoder) (sc : List BodyPoll) (nW len bs : Nat)
    (h : e.state = EncoderState.Body (BodyPoll.bytes [] :: sc) nW (some len))
    (hn : nW ≠ len) :
    (poll_read e bs).2 = PollOut.fail ⟨.other, "Unexpected end of response body"⟩ ∧
    (poll_read e bs).1.state = EncoderState.Body sc nW (some len) := by
  obtain ⟨req, st⟩ := e
  dsimp only at h
  subst h
  unfold poll_read pollBody
  simp [hn]

theorem badBody_run (len : Nat) (calls : List Nat) :
    ∀ (e : Encoder) (s : List BodyPoll) (nW : Nat),
      e.state = EncoderState.Body s nW (some len) → nW ≠ len → allEos s →
      (runAll e calls).1.state ≠ EncoderState.End ∧
        outBytes (runAll e calls).2 = [] := by
  induction calls with
  | nil =>
    intro e s nW h hn he
    constructor
    · show e.state ≠ EncoderState.End
      rw [h]
      intro hx
      cases hx
    · rfl
  | cons bs rest ih =>
    intro e s nW h hn he
    obtain ⟨req, st⟩ := e
    dsimp only at h
    subst h
    cases s with
    | nil =>
      have hstep : poll_read ⟨req, EncoderState.Body [] nW (some len)⟩ bs =
          (⟨req, EncoderState.Body [] nW (some len)⟩, PollOut.pending) := rfl
      have := ih ⟨req, EncoderState.Body [] nW (some len)⟩ [] nW rfl hn he
      constructor
      · show (runAll (poll_read _ bs).1 rest).1.state ≠ EncoderState.End
        rw [hstep]
        exact this.1
      · show outBytes ((poll_read _ bs).2 :: (runAll (poll_read _ bs).1 rest).2) = []
        rw [hstep]
        simpa [outBytes, delivered] using this.2
    | cons i tail =>
      have hi : i = BodyPoll.bytes [] := he i (List.mem_cons_self i tail)
      subst hi
      have htail : allEos tail := by
        intro j hj
        exact he j (List.mem_cons_of_mem _ hj)
      have hstep : poll_read ⟨req, EncoderState.Body (BodyPoll.bytes [] :: tail) nW (some len)⟩ bs =
          (⟨req, EncoderState.Body tail nW (some len)⟩,
           PollOut.fail ⟨.other, "Unexpected end of response body"⟩) := by
        unfold poll_read pollBody
        simp [hn]
      have := ih ⟨req, EncoderState.Body tail nW (some len)⟩ tail nW rfl hn htail
      constructor
      · show (runAll (poll_read _ bs).1 rest).1.state ≠ EncoderState.End
        rw [hstep]
        exact this.1
      · show outBytes ((poll_read _ bs).2 :: (runAll (poll_read _ bs).1 rest).2) = []
        rw [hstep]
        simpa [outBytes, delivered] using this.2

/-- C5: when the body framer signals end-of-stream while a declared length
is present and the bytes-written counter disagrees, that poll_read call
returns the protocol-violation error once and the state does not move to
End; as long as the framer keeps signalling end-of-stream, no later call
ever reaches End or delivers another byte — the encode stays failed. -/
theorem claim5_mismatch_terminal (e : Encoder) (rest : List BodyPoll)
    (nW len bs : Nat)
    (h : e.state = EncoderState.Body (BodyPoll.bytes [] :: rest) nW (some len))
    (hn : nW ≠ len) (he : allEos rest) :
    (poll_read e bs).2 = PollOut.fail ⟨.other, "Unexpected end of response body"⟩ ∧
    (poll_read e bs).1.state = EncoderState.Body rest nW (some len) ∧
    ∀ calls, (runAll (poll_read e bs).1 calls).1.state ≠ EncoderState.End ∧
      outBytes (runAll (poll_read e bs).1 calls).2 = [] := by
  obtain ⟨h1, h2⟩ := mismatch_step e rest nW len bs h hn
  refine ⟨h1, h2, ?_⟩
  intro calls
  exact badBody_run len calls (poll_read e bs).1 rest nW h2 hn he

/-- C5 witness: a framer that ends after zero bytes against a declared
length of two fails the call and never completes afterwards. -/
theorem claim5_witness :
    (poll_read ⟨sampleReq, EncoderState.Body [BodyPoll.bytes []] 0 (some 2)⟩ 9).2 =
      PollOut.fail ⟨.other, "Unexpected end of response body"⟩ ∧
    (runAll (poll_read ⟨sampleReq, EncoderState.Body [BodyPoll.bytes []] 0 (some 2)⟩ 9).1
      [3, 3]).1.state ≠ EncoderState.End := by
  have h := claim5_mismatch_terminal
    ⟨sampleReq, EncoderState.Body [BodyPoll.bytes []] 0 (some 2)⟩ [] 0 2 9 rfl
    (by decide) (by intro i hi; cases hi)
  exact ⟨h.1, (h.2.2 [3, 3]).1⟩

/-- C1: for a request with declared body length len, any call sequence
that brings the encoder to End has delivered exactly the head followed by
len raw body bytes; and whenever the framer signals end-of-stream while
bytes-written differs from len, that call returns the terminal
protocol-violation error instead of moving to End. -/
theorem claim1_body_length_exact (r : Request) (len : Nat) (calls : List Nat)
    (hlen : r.bodyLen = some len) :
    ((runAll (Encoder.new r) calls).1.state = EncoderState.End →
      ∃ r2 buf b, compute_head r = .ok (r2, buf) ∧
        outBytes (runAll (Encoder.new r) calls).2 = buf ++ b ∧ b.length = len) ∧
    (∀ (e : Encoder) (sc : List BodyPoll) (nW bs : Nat),
      e.state = EncoderState.Body (BodyPoll.bytes [] :: sc) nW (some len) →
      nW ≠ len →
      (poll_read e bs).2 = PollOut.fail ⟨.other, "Unexpected end of response body"⟩ ∧
      (poll_read e bs).1.state ≠ EncoderState.End) := by
  constructor
  · intro hEnd
    have inv := runAll_inv0 r calls
    simp only [StateInv] at inv
    rw [hEnd] at inv
    obtain ⟨r2, buf, consumed, rest, hch, hsc, hacc, hl⟩ := inv
    exact ⟨r2, buf, bodyBytes consumed, hch, hacc, hl len hlen⟩
  · intro e sc nW bs h hn
    obtain ⟨h1, h2⟩ := mismatch_step e sc nW len bs h hn
    refine ⟨h1, ?_⟩
    rw [h2]
    intro hx
    cases hx

/-- C1 witness: the two-byte fixture completes in three calls having
delivered its head plus exactly the two body bytes. -/
theorem claim1_witness :
    twoByteReq.bodyLen = some 2 ∧
    (runAll (Encoder.new twoByteReq) [100, 100, 100]).1.state = EncoderState.End ∧
    ∃ r2 buf b, compute_head twoByteReq = .ok (r2, buf) ∧
      outBytes (runAll (Encoder.new twoByteReq) [100, 100, 100]).2 = buf ++ b ∧
      b.length = 2 := by
  refine ⟨rfl, by decide, ?_⟩
  exact (claim1_body_length_exact twoByteReq 2 [100, 100, 100] rfl).1 (by decide)

/-- C4: across any call sequence the delivered bytes always form an
initial segment of the head followed by the framer bytes (so no body byte
is ever handed out before all head bytes, and head bytes and body chunks
arrive in stream order); moreover whenever the state has passed Head, the
full head is an initial segment of what was delivered. -/
theorem claim4_head_before_body (r : Request) (calls : List Nat) :
    (∃ rest, outBytes (runAll (Encoder.new r) calls).2 ++ rest = wireOf r) ∧
    (pastHead (runAll (Encoder.new r) calls).1.state = true →
      ∃ r2 buf tail, compute_head r = .ok (r2, buf) ∧
        outBytes (runAll (Encoder.new r) calls).2 = buf ++ tail) := by
  have inv := runAll_inv0 r calls
  simp only [StateInv] at inv
  cases hst : (runAll (Encoder.new r) calls).1.state with
  | Start =>
    rw [hst] at inv
    obtain ⟨_, hacc⟩ := inv
    constructor
    · exact ⟨wireOf r, by rw [hacc]; rfl⟩
    · intro hx
      simp [pastHead] at hx
  | Head buf c =>
    rw [hst] at inv
    obtain ⟨r2, hch, _, hc, hacc⟩ := inv
    constructor
    · refine ⟨buf.drop c ++ bodyBytes r.bodyScript, ?_⟩
      unfold wireOf
      rw [hch, hacc, ← List.append_assoc, List.take_append_drop]
    · intro hx
      simp [pastHead] at hx
  | Body script nW rl =>
    rw [hst] at inv
    obtain ⟨r2, buf, consumed, hch, hrl, hsc, hacc, hn⟩ := inv
    constructor
    · refine ⟨bodyBytes script, ?_⟩
      unfold wireOf
      rw [hch, hacc, hsc, bodyBytes_append, List.append_assoc]
    · intro _
      exact ⟨r2, buf, bodyBytes consumed, hch, hacc⟩
  | End =>
    rw [hst] at inv
    obtain ⟨r2, buf, consumed, rest, hch, hsc, hacc, _⟩ := inv
    constructor
    · refine ⟨bodyBytes rest, ?_⟩
      unfold wireOf
      rw [hch, hacc, hsc, bodyBytes_append, List.append_assoc]
    · intro _
      exact ⟨r2, buf, bodyBytes consumed, hch, hacc⟩

/-- C4 witness: after two calls the two-byte fixture has passed Head and
its delivered bytes start with the full head. -/
theorem claim4_witness :
    pastHead (runAll (Encoder.new twoByteReq) [100, 100]).1.state = true ∧
    ∃ r2 buf tail, compute_head twoByteReq = .ok (r2, buf) ∧
      outBytes (runAll (Encoder.new twoByteReq) [100, 100]).2 = buf ++ tail :=
  ⟨by decide, (claim4_head_before_body twoByteReq [100, 100]).2 (by decide)⟩

theorem filter_ne_then_eq (hs : List (String × List String)) (n : String) :
    (hs.filter (fun e => e.1 != n)).filter (fun e => e.1 == n) = [] := by
  induction hs with
  | nil => rfl
  | cons a t ih =>
    by_cases ha : a.1 = n
    · simp [List.filter_cons, ha, ih]
    · simp [List.filter_cons, ha, ih]

theorem filter_insertHeader_self (hs : List (String × List String)) (n : String)
    (vs : List String) :
    (insertHeader hs n vs).filter (fun e => e.1 == n) = [(n, vs)] := by
  unfold insertHeader
  rw [List.filter_append, filter_ne_then_eq]
  simp

theorem filter_keep_of_ne (hs : List (String × List String)) (n m : String)
    (hne : m ≠ n) :
    (hs.filter (fun e => e.1 != n)).filter (fun e => e.1 == m) =
      hs.filter (fun e => e.1 == m) := by
  induction hs with
  | nil => rfl
  | cons a t ih =>
    by_cases ham : a.1 = m
    · have han : a.1 ≠ n := by rw [ham]; exact hne
      simp [List.filter_cons, ham, han, ih, hne, Ne.symm hne]
    · by_cases han : a.1 = n <;>
        simp [List.filter_cons, ham, han, ih, hne, Ne.symm hne]

theorem filter_insertHeader_other (hs : List (String × List String))
    (n m : String) (vs : List String) (hne : m ≠ n) :
    (insertHeader hs n vs).filter (fun e => e.1 == m) =
      hs.filter (fun e => e.1 == m) := by
  unfold insertHeader
  rw [List.filter_append, filter_keep_of_ne hs n m hne]
  have h1 : ([(n, vs)].filter (fun e => e.1 == m)) = [] := by
    simp [List.filter_cons, Ne.symm hne]
  rw [h1, List.append_nil]

theorem lookupHdr_none_of_filter_nil (hs : List (String × List String)) (n : String)
    (h : hs.filter (fun e => e.1 == n) = []) : lookupHdr hs n = none := by
  induction hs with
  | nil => rfl
  | cons a t ih =>
    by_cases ha : (a.1 == n) = true
    · simp [List.filter_cons, ha] at h
    · have hb : (a.1 == n) = false := by simpa using ha
      have hfil : t.filter (fun e => e.1 == n) = [] := by
        simpa [List.filter_cons, hb] using h
      unfold lookupHdr
      simp only [List.find?_cons, hb]
      exact ih hfil

theorem hostStep_filter (r r1 : Request) (m : String) (hm : m ≠ "host")
    (hs : hostStep r = .ok r1) :
    r1.headers.filter (fun e => e.1 == m) = r.headers.filter (fun e => e.1 == m) := by
  unfold hostStep at hs
  cases hl : lookupHdr r.headers "host" with
  | some vs =>
    rw [hl] at hs
    simp only [Except.ok.injEq] at hs
    subst hs
    rfl
  | none =>
    rw [hl] at hs
    cases hh : r.url.host with
    | none => rw [hh] at hs; simp at hs
    | some hn =>
      rw [hh] at hs
      simp only [Except.ok.injEq] at hs
      subst hs
      exact filter_insertHeader_other r.headers "host" m _ hm

theorem finalize_step_filters (r r1 rf : Request)
    (hs : hostStep r = .ok r1) (hf : finalize_headers r = .ok rf) :
    (∀ n, r.bodyLen = some n →
      rf.headers.filter (fun e => e.1 == "content-length") =
        [("content-length", [toString n])] ∧
      ∀ m, m ≠ "proxy-connection" → m ≠ "content-length" →
        rf.headers.filter (fun e => e.1 == m) = r1.headers.filter (fun e => e.1 == m)) ∧
    (r.bodyLen = none →
      rf.headers.filter (fun e => e.1 == "transfer-encoding") =
        [("transfer-encoding", ["chunked"])] ∧
      ∀ m, m ≠ "proxy-connection" → m ≠ "transfer-encoding" →
        rf.headers.filter (fun e => e.1 == m) = r1.headers.filter (fun e => e.1 == m)) := by
  obtain ⟨f1, f2, f3, f4⟩ := hostStep_fields r r1 hs
  unfold finalize_headers at hf
  rw [hs] at hf
  constructor
  · intro n hb
    have hb1 : r1.bodyLen = some n := by rw [f3, hb]
    by_cases hc : r1.method = Method.Connect <;>
      simp only [hc, if_true, if_false, reduceIte] at hf <;>
      simp only [hb1] at hf <;>
      simp only [Except.ok.injEq] at hf <;>
      subst hf
    · constructor
      · exact filter_insertHeader_self _ "content-length" _
      · intro m hm1 hm2
        rw [filter_insertHeader_other _ "content-length" m _ hm2,
            filter_insertHeader_other _ "proxy-connection" m _ hm1]
    · constructor
      · exact filter_insertHeader_self _ "content-length" _
      · intro m _ hm2
        rw [filter_insertHeader_other _ "content-length" m _ hm2]
  · intro hb
    have hb1 : r1.bodyLen = none := by rw [f3, hb]
    by_cases hc : r1.method = Method.Connect <;>
      simp only [hc, if_true, if_false, reduceIte] at hf <;>
      simp only [hb1] at hf <;>
      simp only [Except.ok.injEq] at hf <;>
      subst hf
    · constructor
      · exact filter_insertHeader_self _ "transfer-encoding" _
      · intro m hm1 hm2
        rw [filter_insertHeader_other _ "transfer-encoding" m _ hm2,
            filter_insertHeader_other _ "proxy-connection" m _ hm1]
    · constructor
      · exact filter_insertHeader_self _ "transfer-encoding" _
      · intro m _ hm2
        rw [filter_insertHeader_other _ "transfer-encoding" m _ hm2]

theorem finalize_hostStep (r rf : Request) (hf : finalize_headers r = .ok rf) :
    ∃ r1, hostStep r = .ok r1 := by
  unfold finalize_headers at hf
  cases hs : hostStep r with
  | error e => rw [hs] at hf; simp at hf
  | ok r1 => exact ⟨r1, rfl⟩

/-- C3 counterexample: a request with a known body length whose caller
pre-set a chunked transfer-encoding header ends header finalization with
both framing headers present, refuting "never both". -/
theorem claim3_cex :
    finalize_headers teClashReq =
      .ok ⟨.Get, ⟨"http", some "h", none, "/", none, none⟩,
        [("transfer-encoding", ["chunked"]), ("host", ["h"]), ("content-length", ["5"])],
        some 5, []⟩ ∧
    ([("transfer-encoding", ["chunked"]), ("host", ["h"]), ("content-length", ["5"])].filter
      (fun e => e.1 == "content-length") ≠ []) ∧
    ([("transfer-encoding", ["chunked"]), ("host", ["h"]), ("content-length", ["5"])].filter
      (fun e => e.1 == "transfer-encoding") ≠ []) := by
  refine ⟨rfl, by decide, by decide⟩

/-- C3 amended: after finalization the framing header matching the body is
present exactly once with the right value — content-length with the decimal
declared length when the length is known, the chunked transfer-encoding
marker otherwise — and the opposite framing header is absent provided the
caller did not pre-set it (a caller pre-set header of the other kind is
left in place). -/
theorem claim3_amended (r rf : Request) (hf : finalize_headers r = .ok rf) :
    (∀ n, r.bodyLen = some n →
      rf.headers.filter (fun e => e.1 == "content-length") =
        [("content-length", [toString n])] ∧
      (r.headers.filter (fun e => e.1 == "transfer-encoding") = [] →
        rf.headers.filter (fun e => e.1 == "transfer-encoding") = [])) ∧
    (r.bodyLen = none →
      rf.headers.filter (fun e => e.1 == "transfer-encoding") =
        [("transfer-encoding", ["chunked"])] ∧
      (r.headers.filter (fun e => e.1 == "content-length") = [] →
        rf.headers.filter (fun e => e.1 == "content-length") = [])) := by
  obtain ⟨r1, hs⟩ := finalize_hostStep r rf hf
  obtain ⟨hsome, hnone⟩ := finalize_step_filters r r1 rf hs hf
  constructor
  · intro n hb
    obtain ⟨hcl, hpres⟩ := hsome n hb
    refine ⟨hcl, ?_⟩
    intro hte
    rw [hpres "transfer-encoding" (by decide) (by decide),
        hostStep_filter r r1 "transfer-encoding" (by decide) hs]
    exact hte
  · intro hb
    obtain ⟨hte, hpres⟩ := hnone hb
    refine ⟨hte, ?_⟩
    intro hcl
    rw [hpres "content-length" (by decide) (by decide),
        hostStep_filter r r1 "content-length" (by decide) hs]
    exact hcl

/-- C3 amended witness: a request with declared length 0 and no caller
framing header ends with content-length 0 and no transfer-encoding. -/
theorem claim3_witness :
    acceptReq.bodyLen = some 0 ∧
    ∃ rf, finalize_headers acceptReq = .ok rf ∧
      rf.headers.filter (fun e => e.1 == "content-length") =
        [("content-length", ["0"])] ∧
      rf.headers.filter (fun e => e.1 == "transfer-encoding") = [] := by
  have hf : finalize_headers acceptReq =
      .ok ⟨.Get, ⟨"http", some "example.com", none, "/", none, none⟩,
        [("accept", ["text"]), ("host", ["example.com"]), ("content-length", ["0"])],
        some 0, []⟩ := rfl
  have h := (claim3_amended acceptReq _ hf).1 0 rfl
  exact ⟨rfl, _, hf, h.1, h.2 (by decide)⟩

theorem filter_single_split {α : Type} (p : α → Bool) :
    ∀ (l : List α) (x : α), l.filter p = [x] →
      ∃ A B, l = A ++ x :: B ∧ (∀ a ∈ A, p a = false) ∧ (∀ b ∈ B, p b = false) := by
  intro l
  induction l with
  | nil => intro x hx; cases hx
  | cons a t ih =>
    intro x hx
    by_cases ha : p a = true
    · rw [List.filter_cons_of_pos ha] at hx
      have hax : a = x := by
        have := List.head_eq_of_cons_eq hx
        exact this
      have htail : t.filter p = [] := List.tail_eq_of_cons_eq hx
      refine ⟨[], t, ?_, ?_, ?_⟩
      · rw [hax]
        rfl
      · intro y hy
        cases hy
      · intro b hb
        have := List.filter_eq_nil_iff.mp htail b hb
        simpa using this
    · have ha2 : p a = false := by simpa using ha
      rw [List.filter_cons_of_neg (by simp [ha2])] at hx
      obtain ⟨A, B, h1, h2, h3⟩ := ih x hx
      exact ⟨a :: A, B, by rw [h1]; rfl, by
        intro y hy
        cases hy with
        | head => exact ha2
        | tail _ hy2 => exact h2 y hy2, h3⟩

theorem hostStep_host_filter (r r1 : Request) (hs : hostStep r = .ok r1)
    (hHost : r.headers.filter (fun e => e.1 == "host") = [] ∨
             ∃ v, r.headers.filter (fun e => e.1 == "host") = [("host", [v])]) :
    ∃ v, r1.headers.filter (fun e => e.1 == "host") = [("host", [v])] := by
  unfold hostStep at hs
  cases hl : lookupHdr r.headers "host" with
  | some vs =>
    rw [hl] at hs
    simp only [Except.ok.injEq] at hs
    subst hs
    cases hHost with
    | inl hnil =>
      have := lookupHdr_none_of_filter_nil r.headers "host" hnil
      rw [this] at hl
      cases hl
    | inr hv => exact hv
  | none =>
    rw [hl] at hs
    cases hh : r.url.host with
    | none => rw [hh] at hs; simp at hs
    | some hn =>
      rw [hh] at hs
      simp only [Except.ok.injEq] at hs
      subst hs
      exact ⟨hostHeaderValue hn r.url.port,
        filter_insertHeader_self r.headers "host" _⟩

/-- C2 amended: provided the caller supplied at most one Host value, the
emitted header block contains exactly one Host line; every header whose
name is not lexicographically below the string "0" in byte order is
emitted after it, while caller headers whose names sort below "0"
(names beginning with one of the bytes from 0x21 to 0x2f) are emitted
before the Host line. -/
theorem claim2_amended (r rf : Request) (hf : finalize_headers r = .ok rf)
    (hHost : r.headers.filter (fun e => e.1 == "host") = [] ∨
             ∃ v, r.headers.filter (fun e => e.1 == "host") = [("host", [v])]) :
    ∃ v pre post,
      headerPairs rf.headers = pre ++ ("host", v) :: post ∧
      (∀ q ∈ pre, q.1 ≠ "host" ∧ lexLe q.1.data "0".data = true) ∧
      (∀ q ∈ post, q.1 ≠ "host") := by
  obtain ⟨r1, hs⟩ := finalize_hostStep r rf hf
  obtain ⟨v, hr1host⟩ := hostStep_host_filter r r1 hs hHost
  have hrfhost : rf.headers.filter (fun e => e.1 == "host") = [("host", [v])] := by
    cases hb : r.bodyLen with
    | some n =>
      rw [((finalize_step_filters r r1 rf hs hf).1 n hb).2 "host" (by decide) (by decide)]
      exact hr1host
    | none =>
      rw [((finalize_step_filters r r1 rf hs hf).2 hb).2 "host" (by decide) (by decide)]
      exact hr1host
  have hperm : (sortHeaders rf.headers).Perm rf.headers :=
    List.perm_insertionSort entryLe rf.headers
  have hsfilter : (sortHeaders rf.headers).filter (fun e => e.1 == "host") =
      [("host", [v])] := by
    have hp := List.Perm.filter (fun e => e.1 == "host") hperm
    rw [hrfhost] at hp
    exact List.perm_singleton.mp hp
  obtain ⟨A, B, hsplit, hA, hB⟩ :=
    filter_single_split (fun e => e.1 == "host") (sortHeaders rf.headers) _ hsfilter
  have hsorted : List.Sorted entryLe (sortHeaders rf.headers) :=
    List.sorted_insertionSort entryLe rf.headers
  rw [hsplit] at hsorted
  have hAle : ∀ a ∈ A, entryLe a ("host", [v]) := by
    intro a ha
    exact (List.pairwise_append.mp hsorted).2.2 a ha _ (List.mem_cons_self _ _)
  refine ⟨v, A.flatMap (fun e => e.2.map (fun w => (e.1, w))),
          B.flatMap (fun e => e.2.map (fun w => (e.1, w))), ?_, ?_, ?_⟩
  · unfold headerPairs
    rw [hsplit, List.flatMap_append, List.flatMap_cons]
    rfl
  · intro q hq
    rw [List.mem_flatMap] at hq
    obtain ⟨e, heA, hqe⟩ := hq
    rw [List.mem_map] at hqe
    obtain ⟨w, hw, hqw⟩ := hqe
    have hq1 : q.1 = e.1 := by rw [← hqw]
    have hef : (e.1 == "host") = false := hA e heA
    have hne : e.1 ≠ "host" := by simpa using hef
    constructor
    · rw [hq1]
      exact hne
    · have hle := hAle e heA
      unfold entryLe at hle
      have hk1 : sortKey e = e.1 := by unfold sortKey; rw [if_neg hne]
      have hk2 : sortKey ("host", [v]) = "0" := by unfold sortKey; simp
      rw [hk1, hk2] at hle
      rw [hq1]
      exact hle
  · intro q hq
    rw [List.mem_flatMap] at hq
    obtain ⟨e, heB, hqe⟩ := hq
    rw [List.mem_map] at hqe
    obtain ⟨w, hw, hqw⟩ := hqe
    have hq1 : q.1 = e.1 := by rw [← hqw]
    have hef : (e.1 == "host") = false := hB e heB
    rw [hq1]
    simpa using hef

/-- C2 counterexample: a caller header named "!x" (a legal ASCII header
name) sorts below the Host key "0", so the finalized request emits its
line before the Host line: the first emitted header is not Host. -/
theorem claim2_cex :
    finalize_headers bangReq =
      .ok ⟨.Get, ⟨"http", some "example.com", none, "/", none, none⟩,
        [("!x", ["1"]), ("host", ["example.com"]), ("content-length", ["0"])],
        some 0, []⟩ ∧
    (headerPairs [("!x", ["1"]), ("host", ["example.com"]), ("content-length", ["0"])]).map
      (fun q => q.1) = ["!x", "host", "content-length"] ∧
    ("!x" : String) ≠ "host" := by
  refine ⟨rfl, by decide, by decide⟩

/-- C2 amended witness: an ordinary request gets exactly one Host line with
nothing before it. -/
theorem claim2_witness :
    ∃ rf, finalize_headers acceptReq = .ok rf ∧
      ∃ v pre post,
        headerPairs rf.headers = pre ++ ("host", v) :: post ∧
        (∀ q ∈ pre, q.1 ≠ "host" ∧ lexLe q.1.data "0".data = true) ∧
        (∀ q ∈ post, q.1 ≠ "host") := by
  have hf : finalize_headers acceptReq =
      .ok ⟨.Get, ⟨"http", some "example.com", none, "/", none, none⟩,
        [("accept", ["text"]), ("host", ["example.com"]), ("content-length", ["0"])],
        some 0, []⟩ := rfl
  exact ⟨_, hf, claim2_amended acceptReq _ hf (Or.inl (by decide))⟩
